import Mathlib

/-!
Verification of the RSA blind-signature core of the `cryptorion` repository
(`src/blind_signature/message_owner.py` and
`src/blind_signature/RSAbased_blind_signature/signer.py`).

The Python code works on arbitrary-precision non-negative integers, embedded
here as `Nat`; the coefficients produced by the extended Euclidean algorithm
may be negative and are embedded as `Int`.  Python's `%` on an `Int` with a
positive modulus agrees with Lean's `Int.emod`, and Python's `pow(x, y, n)`
with `n > 0` agrees with `x ^ y % n` on `Nat`.

External library primitives (the SHA-256 digest from `Crypto.Hash`, the random
draws of `random.randint`, the prime generator `Crypto.Util.number.getPrime`
and the modular inverse `Crypto.Util.number.inverse`) are not part of the
repository; they are modelled as parameters (an abstract digest function, an
explicit stream of random candidates, explicit prime arguments) or, for
`inverse`, by an executable function realising the library's documented
contract.
-/

namespace Cryptorion

/-- Embedding of `MessageOwner._gcd`: the Euclidean loop
`while b: a, b = b, a % b; return a`. -/
def gcd_loop (a b : Nat) : Nat :=
  if b = 0 then a else gcd_loop b (a % b)
termination_by b
decreasing_by exact Nat.mod_lt _ (Nat.pos_of_ne_zero (by assumption))

/-- Embedding of `MessageOwner._egcd`: the recursive extended Euclidean
algorithm.  `_egcd(a, b)` returns `(b, 0, 1)` when `a == 0` and otherwise
computes `g, y, x = _egcd(b % a, a)` and returns `(g, x - (b // a) * y, y)`.
Both arguments stay non-negative along the recursion; the Bezout
coefficients may be negative, hence `Int`. -/
def egcd : Nat → Nat → Nat × Int × Int
  | 0, b => (b, 0, 1)
  | (a + 1), b =>
    let r := egcd (b % (a + 1)) (a + 1)
    (r.1, r.2.2 - ((b / (a + 1) : Nat) : Int) * r.2.1, r.2.1)
termination_by a _ => a
decreasing_by exact Nat.mod_lt _ (Nat.succ_pos _)

/-- Embedding of `MessageOwner._modinv`: runs `_egcd(a, m)`, raises
`ValueError("Modular inverse does not exist")` when the returned gcd is not 1,
and otherwise returns `x % m` (Python `%` on a possibly negative `x` with a
positive modulus, i.e. `Int.emod`, reduced back to `Nat`). -/
def modinv (a m : Nat) : Except String Nat :=
  let r := egcd a m
  if r.1 ≠ 1 then Except.error "Modular inverse does not exist"
  else Except.ok ((r.2.1 % (m : Int)).toNat)

/-- The `MessageOwner` role of `message_owner.py`: holds the signer's public
key `(e, N)`. -/
structure MessageOwner where
  e : Nat
  N : Nat

/-- The dictionary returned by `MessageOwner.blind_message`:
`{'blinded_msg': ..., 'r': ..., 'original_hash': ...}`. -/
structure BlindData where
  blinded_msg : Nat
  r : Nat
  original_hash : Nat
deriving DecidableEq, Repr

/-- The coprimality-search loop of `MessageOwner.blind_message`:
`while True: r = random.randint(2, N-1); if _gcd(r, N) == 1: break`.
The successive draws of `random.randint` are modelled by the explicit
`stream`; the loop accepts the first draw whose gcd with `N` is 1.  `none`
means the loop has consumed every observed draw without terminating — the
code would keep looping; it has no error exit. -/
def sampleCoprime (N : Nat) : List Nat → Option Nat
  | [] => none
  | c :: rest => if gcd_loop c N = 1 then some c else sampleCoprime N rest

/-- Embedding of `MessageOwner.blind_message`.  The SHA-256 digest
(`bytes_to_long(SHA256.new(message).digest())`) is an external primitive,
passed as the abstract function `digest`; `message` is the byte string.
When a blinding factor `r?` is supplied it is used as-is (the code performs
no check on it); when `r? = none` the code samples candidates until one is
coprime to `N` (modelled by `sampleCoprime` over `stream`).  The blinded
value is `(m * pow(r, e, N)) % N`. -/
def blind_message (mo : MessageOwner) (digest : List Nat → Nat)
    (message : List Nat) (r? : Option Nat) (stream : List Nat) :
    Option BlindData :=
  let m := digest message
  match r? with
  | some r => some ⟨(m * (r ^ mo.e % mo.N)) % mo.N, r, m⟩
  | none =>
    match sampleCoprime mo.N stream with
    | some r => some ⟨(m * (r ^ mo.e % mo.N)) % mo.N, r, m⟩
    | none => none

/-- Embedding of `MessageOwner.unblind_signature`:
`r_inv = _modinv(r, N); return (blinded_signature * r_inv) % N`.
Propagates the `ValueError` of `_modinv`. -/
def unblind_signature (mo : MessageOwner) (blinded_signature r : Nat) :
    Except String Nat :=
  match modinv r mo.N with
  | Except.error s => Except.error s
  | Except.ok r_inv => Except.ok ((blinded_signature * r_inv) % mo.N)

/-- Embedding of `MessageOwner.verify`: recomputes the digest and returns
`pow(signature, e, N) == m % N`. -/
def verify (mo : MessageOwner) (digest : List Nat → Nat)
    (message : List Nat) (signature : Nat) : Bool :=
  let m := digest message
  signature ^ mo.e % mo.N == m % mo.N

/-- The `Signer` role of `RSAbased_blind_signature/signer.py`: holds the
private key `(d, N)`. -/
structure Signer where
  d : Nat
  N : Nat

/-- Embedding of `Signer.sign_blinded`: `return pow(blinded_message, d, N)`.
The code performs no validation of any kind on `blinded_message`. -/
def Signer.sign_blinded (s : Signer) (blinded_message : Nat) : Nat :=
  blinded_message ^ s.d % s.N

/-- Model of the external library primitive `Crypto.Util.number.inverse`:
returns the modular inverse of `a` modulo `m` and raises `ValueError` when
`gcd(a, m) ≠ 1`.  Realised executably by the extended Euclidean algorithm,
which matches the library's documented contract (the inverse in `[0, m)` is
unique when it exists). -/
def inverseLib (a m : Nat) : Except String Nat :=
  if Nat.gcd a m = 1 then Except.ok (((egcd a m).2.1 % (m : Int)).toNat)
  else Except.error "ValueError"

/-- Embedding of `generate_rsa_keys` of
`RSAbased_blind_signature/signer.py`.  The two primes produced by the
external `getPrime(key_size // 2)` calls are passed explicitly as `p` and
`q`.  The code fixes `e = 65537`, sets `N = p * q`,
`phi = (p - 1) * (q - 1)`, `d = inverse(e, phi)` and returns
`((e, N), (d, N))`; a failure of the library `inverse` propagates. -/
def generate_rsa_keys (p q : Nat) :
    Except String ((Nat × Nat) × (Nat × Nat)) :=
  let e := 65537
  let N := p * q
  let phi := (p - 1) * (q - 1)
  match inverseLib e phi with
  | Except.error s => Except.error s
  | Except.ok d => Except.ok ((e, N), (d, N))

/-! ### Correctness of the embedded Euclidean algorithms -/

/-- The Euclidean loop `_gcd` computes the mathematical gcd. -/
theorem gcd_loop_eq (a b : Nat) : gcd_loop a b = Nat.gcd a b := by
  induction b using Nat.strong_induction_on generalizing a with
  | _ b ih =>
    rw [gcd_loop]
    by_cases hb : b = 0
    · subst hb; simp
    · rw [if_neg hb, ih _ (Nat.mod_lt _ (Nat.pos_of_ne_zero hb)) b,
        Nat.gcd_comm b (a % b), ← Nat.gcd_rec b a, Nat.gcd_comm b a]

/-- `_egcd a b` returns the gcd of `a` and `b` together with Bezout
coefficients. -/
theorem egcd_spec (a : Nat) : ∀ b : Nat, (egcd a b).1 = Nat.gcd a b ∧
    (a : Int) * (egcd a b).2.1 + (b : Int) * (egcd a b).2.2 =
      ((egcd a b).1 : Int) := by
  induction a using Nat.strong_induction_on with
  | _ a ih =>
    intro b
    match a with
    | 0 => simp [egcd]
    | a' + 1 =>
      have hlt : b % (a' + 1) < a' + 1 := Nat.mod_lt _ (Nat.succ_pos _)
      obtain ⟨ihg, ihb⟩ := ih _ hlt (a' + 1)
      have hmod : ((a' + 1 : Nat) : Int) * ((b / (a' + 1) : Nat) : Int) +
          ((b % (a' + 1) : Nat) : Int) = (b : Int) := by
        exact_mod_cast congrArg (fun n : Nat => (n : Int))
          (Nat.div_add_mod b (a' + 1))
      constructor
      · show (egcd (a' + 1) b).1 = Nat.gcd (a' + 1) b
        rw [Nat.gcd_rec (a' + 1) b]
        simpa [egcd] using ihg
      · simp only [egcd]
        linear_combination ihb - (egcd (b % (a' + 1)) (a' + 1)).2.1 * hmod

/-- When `gcd(a, m) = 1` and `m > 0`, `_modinv a m` returns (without raising)
a value `x < m` with `(a * x) % m = 1 % m`. -/
theorem modinv_spec (a m : Nat) (hm : 0 < m) (hg : Nat.gcd a m = 1) :
    ∃ x, modinv a m = Except.ok x ∧ x < m ∧ (a * x) % m = 1 % m := by
  obtain ⟨hgcd, hbez⟩ := egcd_spec a m
  set u : Int := (egcd a m).2.1 with hu
  set v : Int := (egcd a m).2.2 with hv
  have hg1 : (egcd a m).1 = 1 := by rw [hgcd, hg]
  have hm0 : (m : Int) ≠ 0 := by exact_mod_cast hm.ne'
  have hmpos : (0 : Int) < (m : Int) := by exact_mod_cast hm
  have h0 : (0 : Int) ≤ u % (m : Int) := Int.emod_nonneg u hm0
  have h1 : u % (m : Int) < (m : Int) := Int.emod_lt_of_pos u hmpos
  refine ⟨(u % (m : Int)).toNat, ?_, ?_, ?_⟩
  · simp [modinv, hg1]
  · omega
  · have hcast : (((u % (m : Int)).toNat : Int)) = u % (m : Int) :=
      Int.toNat_of_nonneg h0
    have hequ : u % (m : Int) ≡ u [ZMOD (m : Int)] :=
      Int.emod_emod_of_dvd u dvd_rfl
    have hau : (a : Int) * u ≡ 1 [ZMOD (m : Int)] := by
      rw [Int.modEq_iff_dvd]
      refine ⟨v, ?_⟩
      rw [hg1] at hbez
      push_cast at hbez
      linarith
    have hfinal : ((a : Int) * ((u % (m : Int)).toNat : Int)) ≡ 1
        [ZMOD (m : Int)] := by
      rw [hcast]
      exact (hequ.mul_left (a : Int)).trans hau
    have : ((a * (u % (m : Int)).toNat : Nat) : Int) % (m : Int) =
        ((1 : Nat) : Int) % (m : Int) := by
      push_cast
      exact hfinal
    exact_mod_cast this

/-- `_modinv` raises exactly when the gcd is not 1. -/
theorem modinv_err (a m : Nat) (hg : Nat.gcd a m ≠ 1) :
    modinv a m = Except.error "Modular inverse does not exist" := by
  have hgcd := (egcd_spec a m).1
  simp [modinv, hgcd, hg]

/-! ### The RSA correctness theorem -/

/-- For a prime `p` and any exponent `n ≥ 1` with `(p - 1) ∣ (n - 1)`,
the map `m ↦ m ^ n` fixes every residue modulo `p`. -/
theorem rsa_pow_prime (p n m : Nat) (hp : p.Prime) (hn : 1 ≤ n)
    (hdvd : (p - 1) ∣ (n - 1)) : m ^ n ≡ m [MOD p] := by
  by_cases hpm : p ∣ m
  · have h0 : m ≡ 0 [MOD p] := (Nat.modEq_zero_iff_dvd).2 hpm
    calc m ^ n ≡ 0 ^ n [MOD p] := h0.pow n
      _ = 0 := by rw [zero_pow (by omega)]
      _ ≡ m [MOD p] := h0.symm
  · have hco : Nat.Coprime m p :=
      Nat.coprime_comm.mp ((Nat.Prime.coprime_iff_not_dvd hp).mpr hpm)
    obtain ⟨k, hk⟩ := hdvd
    have hn' : n = 1 + (p - 1) * k := by omega
    have hf : m ^ (p - 1) ≡ 1 [MOD p] := by
      have := Nat.ModEq.pow_totient hco
      rwa [Nat.totient_prime hp] at this
    calc m ^ n = m ^ 1 * (m ^ (p - 1)) ^ k := by
          rw [hn', pow_add, pow_mul]
      _ ≡ m ^ 1 * 1 ^ k [MOD p] := (hf.pow k).mul_left (m ^ 1)
      _ = m := by ring

/-- The RSA inversion theorem: for distinct primes `p, q` and any exponent
`ed ≡ 1 (mod (p-1)(q-1))`, raising to the `ed` fixes every residue modulo
`p * q` — coprimality of the base is not needed. -/
theorem rsa_core (p q ed : Nat) (hp : p.Prime) (hq : q.Prime) (hpq : p ≠ q)
    (hed : ed ≡ 1 [MOD (p - 1) * (q - 1)]) (m : Nat) :
    m ^ ed ≡ m [MOD p * q] := by
  have hp2 := hp.two_le
  have hq2 := hq.two_le
  have hphi : 2 ≤ (p - 1) * (q - 1) := by
    rcases Nat.lt_or_ge p 3 with hp3 | hp3
    · have hpe : p = 2 := by omega
      have hq3 : 3 ≤ q := by omega
      calc 2 ≤ 1 * (q - 1) := by omega
        _ ≤ (p - 1) * (q - 1) := Nat.mul_le_mul_right _ (by omega)
    · calc 2 ≤ 2 * 1 := by omega
        _ ≤ (p - 1) * (q - 1) := Nat.mul_le_mul (by omega) (by omega)
  have hed1 : 1 ≤ ed := by
    by_contra h
    have hz : ed = 0 := by omega
    have : ed % ((p - 1) * (q - 1)) = 1 % ((p - 1) * (q - 1)) := hed
    rw [hz, Nat.zero_mod, Nat.mod_eq_of_lt (by omega)] at this
    omega
  have hdvd : (p - 1) * (q - 1) ∣ ed - 1 :=
    (Nat.modEq_iff_dvd' hed1).mp hed.symm
  have hdp : (p - 1) ∣ ed - 1 := dvd_trans (dvd_mul_right _ _) hdvd
  have hdq : (q - 1) ∣ ed - 1 := dvd_trans (dvd_mul_left _ _) hdvd
  have hco : Nat.Coprime p q := (Nat.coprime_primes hp hq).mpr hpq
  exact (Nat.modEq_and_modEq_iff_modEq_mul hco).mp
    ⟨rsa_pow_prime p ed m hp hed1 hdp, rsa_pow_prime q ed m hq hed1 hdq⟩

/-- Totient of a product of two distinct primes. -/
theorem totient_pq (p q : Nat) (hp : p.Prime) (hq : q.Prime) (hpq : p ≠ q) :
    Nat.totient (p * q) = (p - 1) * (q - 1) := by
  rw [Nat.totient_mul ((Nat.coprime_primes hp hq).mpr hpq),
    Nat.totient_prime hp, Nat.totient_prime hq]

/-! ### Shape lemmas for the embedded operations -/

/-- Multiplying by a reduced power agrees with the unreduced product mod `N`:
`(m * (x % N)) % N = (m * x) % N`. -/
theorem mul_mod_red (m x N : Nat) : (m * (x % N)) % N = (m * x) % N := by
  conv_lhs => rw [Nat.mul_mod]
  conv_rhs => rw [Nat.mul_mod]
  rw [Nat.mod_mod_of_dvd _ dvd_rfl]

/-- A successful run of the coprimality-search loop returns a draw from the
stream whose gcd with `N` is 1. -/
theorem sampleCoprime_some (N : Nat) (s : List Nat) (r : Nat)
    (h : sampleCoprime N s = some r) : r ∈ s ∧ Nat.gcd r N = 1 := by
  induction s with
  | nil => simp [sampleCoprime] at h
  | cons c rest ih =>
    rw [sampleCoprime] at h
    by_cases hc : gcd_loop c N = 1
    · rw [if_pos hc] at h
      cases h
      exact ⟨List.mem_cons_self _ _, by rw [← gcd_loop_eq]; exact hc⟩
    · rw [if_neg hc] at h
      obtain ⟨hm, hg⟩ := ih h
      exact ⟨List.mem_cons_of_mem _ hm, hg⟩

/-- The coprimality-search loop consumes the whole stream without stopping
exactly when no draw is coprime to `N`. -/
theorem sampleCoprime_none_iff (N : Nat) (s : List Nat) :
    sampleCoprime N s = none ↔ ∀ c ∈ s, Nat.gcd c N ≠ 1 := by
  induction s with
  | nil => simp [sampleCoprime]
  | cons c rest ih =>
    rw [sampleCoprime]
    by_cases hc : gcd_loop c N = 1
    · rw [if_pos hc]
      simp only [gcd_loop_eq] at hc
      simp [hc]
    · rw [if_neg hc]
      simp only [gcd_loop_eq] at hc
      simp [ih, hc]

/-- Every successful result of `blind_message` has the shape
`{blinded: (m * (r^e % N)) % N, r, original_hash: m}` for its own factor
`bd.r`. -/
theorem blind_message_shape (mo : MessageOwner) (digest : List Nat → Nat)
    (message : List Nat) (r? : Option Nat) (stream : List Nat) (bd : BlindData)
    (hb : blind_message mo digest message r? stream = some bd) :
    bd.blinded_msg = (digest message * (bd.r ^ mo.e % mo.N)) % mo.N ∧
      bd.original_hash = digest message := by
  match r? with
  | some r =>
    simp only [blind_message, Option.some.injEq] at hb
    subst hb
    exact ⟨rfl, rfl⟩
  | none =>
    simp only [blind_message] at hb
    cases hs : sampleCoprime mo.N stream with
    | none => rw [hs] at hb; cases hb
    | some r =>
      rw [hs] at hb
      simp only [Option.some.injEq] at hb
      subst hb
      exact ⟨rfl, rfl⟩

/-- A sampled (not caller-supplied) factor is additionally coprime to `N`. -/
theorem blind_message_sampled_coprime (mo : MessageOwner)
    (digest : List Nat → Nat) (message : List Nat) (stream : List Nat)
    (bd : BlindData)
    (hb : blind_message mo digest message none stream = some bd) :
    bd.r ∈ stream ∧ Nat.gcd bd.r mo.N = 1 := by
  simp only [blind_message] at hb
  cases hs : sampleCoprime mo.N stream with
  | none => rw [hs] at hb; cases hb
  | some r =>
    rw [hs] at hb
    simp only [Option.some.injEq] at hb
    subst hb
    exact sampleCoprime_some mo.N stream r hs

/-- On coprime inputs (the only case in which both succeed) the library
inverse model agrees with the repository's own `_modinv`. -/
theorem inverseLib_eq_modinv (a m : Nat) (hg : Nat.gcd a m = 1) :
    inverseLib a m = modinv a m := by
  have h1 := (egcd_spec a m).1
  simp [inverseLib, modinv, hg, h1]

/-- The full protocol chain: signing the blinded value
`(m * (r^e % N)) % N` with the private exponent and unblinding with `r`
yields exactly `m ^ d % N`. -/
theorem unblind_chain (p q e d r m : Nat) (hp : p.Prime) (hq : q.Prime)
    (hpq : p ≠ q) (hed : e * d ≡ 1 [MOD (p - 1) * (q - 1)])
    (hr : Nat.gcd r (p * q) = 1) :
    unblind_signature ⟨e, p * q⟩
      (Signer.sign_blinded ⟨d, p * q⟩ ((m * (r ^ e % (p * q))) % (p * q))) r =
      Except.ok (m ^ d % (p * q)) := by
  set N := p * q with hN
  have hN0 : 0 < N := Nat.mul_pos hp.pos hq.pos
  obtain ⟨rinv, hok, hlt, hrr⟩ := modinv_spec r N hN0 hr
  have hrinv : r * rinv ≡ 1 [MOD N] := hrr
  have hblind : (m * (r ^ e % N)) % N ≡ m * r ^ e [MOD N] :=
    (Nat.mod_modEq _ N).trans ((Nat.mod_modEq (r ^ e) N).mul_left m)
  have hs : ((m * (r ^ e % N)) % N) ^ d % N ≡ m ^ d * r [MOD N] := by
    calc ((m * (r ^ e % N)) % N) ^ d % N
        ≡ ((m * (r ^ e % N)) % N) ^ d [MOD N] := Nat.mod_modEq _ N
      _ ≡ (m * r ^ e) ^ d [MOD N] := hblind.pow d
      _ = m ^ d * r ^ (e * d) := by rw [mul_pow, ← pow_mul]
      _ ≡ m ^ d * r [MOD N] :=
        (rsa_core p q (e * d) hp hq hpq hed r).mul_left _
  have hfin : (((m * (r ^ e % N)) % N) ^ d % N) * rinv ≡ m ^ d [MOD N] := by
    calc (((m * (r ^ e % N)) % N) ^ d % N) * rinv
        ≡ (m ^ d * r) * rinv [MOD N] := hs.mul_right rinv
      _ = m ^ d * (r * rinv) := by ring
      _ ≡ m ^ d * 1 [MOD N] := hrinv.mul_left _
      _ = m ^ d := by ring
  show unblind_signature ⟨e, N⟩ _ r = _
  simp only [unblind_signature, Signer.sign_blinded, hok]
  exact congrArg Except.ok hfin

/-! ### Claims -/

/-- Claim C1 (confirmed): round-trip correctness.  For every valid key pair
(`e * d ≡ 1 mod (p-1)(q-1)` with `N = p * q` a product of two distinct
primes), every message and digest function, and every blinding outcome whose
factor is coprime to `N`, verifying the unblinded result of signing the
blinded message returns `true`. -/
theorem C1_round_trip (p q e d : Nat) (digest : List Nat → Nat)
    (message : List Nat) (r? : Option Nat) (stream : List Nat)
    (bd : BlindData) (hp : p.Prime) (hq : q.Prime) (hpq : p ≠ q)
    (hed : e * d ≡ 1 [MOD (p - 1) * (q - 1)])
    (hb : blind_message ⟨e, p * q⟩ digest message r? stream = some bd)
    (hr : Nat.gcd bd.r (p * q) = 1) :
    ∃ s, unblind_signature ⟨e, p * q⟩
        (Signer.sign_blinded ⟨d, p * q⟩ bd.blinded_msg) bd.r = Except.ok s ∧
      verify ⟨e, p * q⟩ digest message s = true := by
  set N := p * q with hN
  set m := digest message with hm
  obtain ⟨hbl, -⟩ := blind_message_shape _ digest message r? stream bd hb
  refine ⟨m ^ d % N, ?_, ?_⟩
  · rw [hbl]
    exact unblind_chain p q e d bd.r m hp hq hpq hed hr
  · have hde : d * e ≡ 1 [MOD (p - 1) * (q - 1)] := by
      rwa [Nat.mul_comm d e]
    have hver : (m ^ d % N) ^ e ≡ m [MOD N] := by
      calc (m ^ d % N) ^ e
          ≡ (m ^ d) ^ e [MOD N] := (Nat.mod_modEq (m ^ d) N).pow e
        _ = m ^ (d * e) := by rw [pow_mul]
        _ ≡ m [MOD N] := rsa_core p q (d * e) hp hq hpq hde m
    simp only [verify, beq_iff_eq]
    exact hver

/-- Claim C1 witness: a concrete run with `p = 3, q = 5, e = d = 3, r = 2`
and digest value 2. -/
theorem C1_witness :
    Nat.Prime 3 ∧ Nat.Prime 5 ∧ (3 ≠ 5) ∧
    (3 * 3 ≡ 1 [MOD (3 - 1) * (5 - 1)]) ∧
    blind_message ⟨3, 3 * 5⟩ (fun _ => 2) [] (some 2) [] = some ⟨1, 2, 2⟩ ∧
    Nat.gcd (BlindData.r ⟨1, 2, 2⟩) (3 * 5) = 1 ∧
    ∃ s, unblind_signature ⟨3, 3 * 5⟩
        (Signer.sign_blinded ⟨3, 3 * 5⟩ (BlindData.blinded_msg ⟨1, 2, 2⟩))
        (BlindData.r ⟨1, 2, 2⟩) = Except.ok s ∧
      verify ⟨3, 3 * 5⟩ (fun _ => 2) [] s = true :=
  ⟨by decide, by decide, by decide, by decide, by decide, by decide,
    C1_round_trip 3 5 3 3 (fun _ => 2) [] (some 2) [] ⟨1, 2, 2⟩ (by decide)
      (by decide) (by decide) (by decide) (by decide) (by decide)⟩

/-- Claim C2 (confirmed): unblinding identity.  For every valid key pair and
every supplied blinding factor `r` coprime to `N`, unblinding the signature
of the blinded message equals `pow(digest(message), d, N)` exactly. -/
theorem C2_unblinding_identity (p q e d r : Nat) (digest : List Nat → Nat)
    (message : List Nat) (stream : List Nat) (bd : BlindData)
    (hp : p.Prime) (hq : q.Prime) (hpq : p ≠ q)
    (hed : e * d ≡ 1 [MOD (p - 1) * (q - 1)])
    (hb : blind_message ⟨e, p * q⟩ digest message (some r) stream = some bd)
    (hr : Nat.gcd r (p * q) = 1) :
    unblind_signature ⟨e, p * q⟩
        (Signer.sign_blinded ⟨d, p * q⟩ bd.blinded_msg) r =
      Except.ok (digest message ^ d % (p * q)) := by
  simp only [blind_message, Option.some.injEq] at hb
  subst hb
  exact unblind_chain p q e d r (digest message) hp hq hpq hed hr

/-- Claim C2 witness: the same concrete run as for C1. -/
theorem C2_witness :
    Nat.Prime 3 ∧ Nat.Prime 5 ∧ (3 ≠ 5) ∧
    (3 * 3 ≡ 1 [MOD (3 - 1) * (5 - 1)]) ∧
    blind_message ⟨3, 3 * 5⟩ (fun _ => 2) [] (some 2) [] = some ⟨1, 2, 2⟩ ∧
    Nat.gcd 2 (3 * 5) = 1 ∧
    unblind_signature ⟨3, 3 * 5⟩
        (Signer.sign_blinded ⟨3, 3 * 5⟩ (BlindData.blinded_msg ⟨1, 2, 2⟩)) 2 =
      Except.ok ((fun _ => 2 : List Nat → Nat) [] ^ 3 % (3 * 5)) :=
  ⟨by decide, by decide, by decide, by decide, by decide, by decide,
    C2_unblinding_identity 3 5 3 3 2 (fun _ => 2) [] [] ⟨1, 2, 2⟩ (by decide)
      (by decide) (by decide) (by decide) (by decide) (by decide)⟩

/-- Claim C3 counterexample: at `a = 1, m = 1` we have `gcd(1, 1) = 1` and
`mod_inverse(1, 1)` returns 0, but `(1 * 0) % 1 = 0 ≠ 1`, so the literal
post-condition `(a * mod_inverse(a, m)) % m == 1` fails at `m = 1`. -/
theorem C3_counterexample :
    Nat.gcd 1 1 = 1 ∧ modinv 1 1 = Except.ok 0 ∧ (1 * 0) % 1 ≠ 1 := by
  refine ⟨rfl, ?_, by decide⟩
  simp [modinv, egcd]

/-- Claim C3 (corrected, amended to moduli `m > 1`): for `gcd(a, m) = 1`,
`_modinv a m` returns `x ∈ [0, m)` with `(a * x) % m = 1`, and it raises
`ValueError` exactly when `gcd(a, m) ≠ 1`.  The embedding is a pure
function, so determinism and absence of side effects hold by
construction. -/
theorem C3_mod_inverse (a m : Nat) (hm : 1 < m) :
    (Nat.gcd a m = 1 →
      ∃ x, modinv a m = Except.ok x ∧ x < m ∧ (a * x) % m = 1) ∧
    ((∃ s, modinv a m = Except.error s) ↔ Nat.gcd a m ≠ 1) := by
  constructor
  · intro hg
    obtain ⟨x, hok, hx, hax⟩ := modinv_spec a m (by omega) hg
    exact ⟨x, hok, hx, by rwa [Nat.mod_eq_of_lt hm] at hax⟩
  · constructor
    · rintro ⟨s, hs⟩ hg
      obtain ⟨x, hok, -, -⟩ := modinv_spec a m (by omega) hg
      rw [hok] at hs
      cases hs
    · intro hg
      exact ⟨_, modinv_err a m hg⟩

/-- Claim C3 witness: `a = 3, m = 7` gives the inverse 5. -/
theorem C3_witness :
    (1 : Nat) < 7 ∧ Nat.gcd 3 7 = 1 ∧
      ∃ x, modinv 3 7 = Except.ok x ∧ x < 7 ∧ (3 * x) % 7 = 1 :=
  ⟨by decide, by decide, (C3_mod_inverse 3 7 (by decide)).1 (by decide)⟩

/-- Claim C4 (confirmed): blinding formula.  With a caller-supplied factor
`r`, `blind_message` returns the digest `m`, the factor `r` and the blinded
value `(m * r^e) % N`; with a sampled factor (draws taken from `[2, N-1]`,
per the contract of `random.randint(2, N-1)`), the returned factor
additionally satisfies `gcd(r, N) = 1`. -/
theorem C4_blinding_formula (mo : MessageOwner) (digest : List Nat → Nat)
    (message : List Nat) (stream : List Nat)
    (hstream : ∀ c ∈ stream, 2 ≤ c ∧ c ≤ mo.N - 1) :
    (∀ r, blind_message mo digest message (some r) stream =
        some ⟨(digest message * r ^ mo.e) % mo.N, r, digest message⟩) ∧
    (∀ bd, blind_message mo digest message none stream = some bd →
        2 ≤ bd.r ∧ bd.r ≤ mo.N - 1 ∧ Nat.gcd bd.r mo.N = 1 ∧
        bd.blinded_msg = (digest message * bd.r ^ mo.e) % mo.N ∧
        bd.original_hash = digest message) := by
  constructor
  · intro r
    simp only [blind_message]
    rw [mul_mod_red]
  · intro bd hb
    obtain ⟨hmem, hg⟩ :=
      blind_message_sampled_coprime mo digest message stream bd hb
    obtain ⟨hbl, hoh⟩ := blind_message_shape mo digest message none stream bd hb
    obtain ⟨h2, hle⟩ := hstream bd.r hmem
    exact ⟨h2, hle, hg, by rw [hbl, mul_mod_red], hoh⟩

/-- Claim C4 witness: modulus 15, stream `[3]`, supplied factor 7. -/
theorem C4_witness :
    (∀ c ∈ [3], 2 ≤ c ∧ c ≤ 15 - 1) ∧
    blind_message ⟨3, 15⟩ (fun _ => 2) [] (some 7) [3] =
      some ⟨(2 * 7 ^ 3) % 15, 7, 2⟩ :=
  ⟨by decide,
    (C4_blinding_formula ⟨3, 15⟩ (fun _ => 2) [] [3] (by decide)).1 7⟩

/-- Claim C5 (confirmed): `verify` recomputes the digest and returns exactly
the boolean `signature^e mod N == m mod N`.  In the embedding it is a total
`Bool`-valued function: a mismatch is the normal result `false`, never an
exception. -/
theorem C5_verify_definition (mo : MessageOwner) (digest : List Nat → Nat)
    (message : List Nat) (signature : Nat) :
    verify mo digest message signature = true ↔
      signature ^ mo.e % mo.N = digest message % mo.N := by
  simp [verify]

/-- Claim C6 (confirmed): negative verification.  For a valid key pair, if
`verify` accepts `s` for a message, it rejects every `s'` not congruent to
`s` mod `N`, and rejects the original `s` for any message whose digest is
not congruent to the original digest mod `N`. -/
theorem C6_negative_verification (p q e d s s' : Nat)
    (digest : List Nat → Nat) (message message' : List Nat)
    (hp : p.Prime) (hq : q.Prime) (hpq : p ≠ q)
    (hed : e * d ≡ 1 [MOD (p - 1) * (q - 1)])
    (hs : verify ⟨e, p * q⟩ digest message s = true)
    (hs' : ¬ s' ≡ s [MOD p * q])
    (hm' : ¬ digest message' ≡ digest message [MOD p * q]) :
    verify ⟨e, p * q⟩ digest message s' = false ∧
      verify ⟨e, p * q⟩ digest message' s = false := by
  set N := p * q with hN
  simp only [verify, beq_iff_eq] at hs
  simp only [verify, beq_eq_false_iff_ne, ne_eq]
  constructor
  · intro hcon
    apply hs'
    have h1 : s' ^ e ≡ s ^ e [MOD N] := hcon.trans hs.symm
    have h2 : s' ^ (e * d) ≡ s ^ (e * d) [MOD N] := by
      rw [pow_mul, pow_mul]
      exact h1.pow d
    exact ((rsa_core p q (e * d) hp hq hpq hed s').symm.trans h2).trans
      (rsa_core p q (e * d) hp hq hpq hed s)
  · intro hcon
    exact hm' (hcon.symm.trans hs)

/-- Claim C6 witness: with `p = 3, q = 5, e = d = 3`, digest
`fun l => 2 + l.length`, the signature 8 verifies for `[]`; the perturbed
signature 9 and the altered message `[0]` are both rejected. -/
theorem C6_witness :
    Nat.Prime 3 ∧ Nat.Prime 5 ∧ (3 ≠ 5) ∧
    (3 * 3 ≡ 1 [MOD (3 - 1) * (5 - 1)]) ∧
    verify ⟨3, 3 * 5⟩ (fun l => 2 + l.length) [] 8 = true ∧
    ¬ (9 ≡ 8 [MOD 3 * 5]) ∧
    ¬ ((fun l => 2 + l.length : List Nat → Nat) [0] ≡
        (fun l => 2 + l.length : List Nat → Nat) [] [MOD 3 * 5]) ∧
    (verify ⟨3, 3 * 5⟩ (fun l => 2 + l.length) [] 9 = false ∧
      verify ⟨3, 3 * 5⟩ (fun l => 2 + l.length) [0] 8 = false) :=
  ⟨by decide, by decide, by decide, by decide, by decide, by decide,
    by decide,
    C6_negative_verification 3 5 3 3 8 9 (fun l => 2 + l.length) [] [0]
      (by decide) (by decide) (by decide) (by decide) (by decide) (by decide)
      (by decide)⟩

/-- Claim C7 counterexample: with private key `(d, N) = (3, 15)` the input
15 lies outside `[0, N)`, yet `sign_blinded` returns the ordinary value 0 —
the code contains no range check and has no failure path, so it does not
raise `InvalidInputError` on out-of-range input. -/
theorem C7_counterexample :
    ¬ (15 : Nat) < 15 ∧ Signer.sign_blinded ⟨3, 15⟩ 15 = 0 := by decide

/-- Claim C7 (corrected, amended): `sign_blinded` performs no validation at
all and never fails: for every input — inside or outside `[0, N)` — it
returns `blinded_value ^ d mod N`, which lies in `[0, N)` when `N > 0`. -/
theorem C7_sign_unvalidated (sg : Signer) (b : Nat) (hn : 0 < sg.N) :
    Signer.sign_blinded sg b = b ^ sg.d % sg.N ∧
      Signer.sign_blinded sg b < sg.N :=
  ⟨rfl, Nat.mod_lt _ hn⟩

/-- Claim C7 witness: key `(3, 15)` and the out-of-range input 20. -/
theorem C7_witness :
    (0 : Nat) < 15 ∧
    (Signer.sign_blinded ⟨3, 15⟩ 20 = 20 ^ 3 % 15 ∧
      Signer.sign_blinded ⟨3, 15⟩ 20 < 15) :=
  ⟨by decide, C7_sign_unvalidated ⟨3, 15⟩ 20 (by decide)⟩

/-- Claim C8 counterexample: with modulus `N = 4` and five sampled
candidates all equal to 2 (each with `gcd(2, 4) = 2 ≠ 1`), the search loop
rejects every draw and is still running — `blind_message` produces no
result and no `BlindingFactorError` exists anywhere in the code; the loop
has no retry bound. -/
theorem C8_counterexample :
    blind_message ⟨3, 4⟩ (fun _ => 1) [] none [2, 2, 2, 2, 2] = none := by
  have h : sampleCoprime 4 [2, 2, 2, 2, 2] = none :=
    (sampleCoprime_none_iff 4 _).mpr (by decide)
  simp [blind_message, h]

/-- Claim C8 (corrected, amended): the coprimality search is an unbounded
`while True` loop with no retry cap and no failure value: sampling
terminates exactly when some draw of the stream is coprime to `N`, however
long the stream of rejected draws before it. -/
theorem C8_unbounded_search (mo : MessageOwner) (digest : List Nat → Nat)
    (message : List Nat) (stream : List Nat) :
    (∃ bd, blind_message mo digest message none stream = some bd) ↔
      ∃ c ∈ stream, Nat.gcd c mo.N = 1 := by
  constructor
  · rintro ⟨bd, hb⟩
    obtain ⟨hmem, hg⟩ :=
      blind_message_sampled_coprime mo digest message stream bd hb
    exact ⟨bd.r, hmem, hg⟩
  · rintro ⟨c, hc, hg⟩
    cases hsc : sampleCoprime mo.N stream with
    | none => exact absurd hg ((sampleCoprime_none_iff mo.N stream).mp hsc c hc)
    | some r =>
      exact ⟨⟨(digest message * (r ^ mo.e % mo.N)) % mo.N, r, digest message⟩,
        by simp [blind_message, hsc]⟩

/-- Claim C9 counterexample: `getPrime` may return the same prime twice.
At `p = q = 3` the code computes `phi = (3-1)*(3-1) = 4` and
`d = inverse(65537, 4) = 1`, returning keys over `N = 9` — but
`φ(9) = 6` and `65537 * 1 ≢ 1 (mod 6)`, so `e·d ≡ 1 (mod φ(N))` fails. -/
theorem C9_counterexample :
    generate_rsa_keys 3 3 = Except.ok ((65537, 9), (1, 9)) ∧
      ¬ (65537 * 1 ≡ 1 [MOD Nat.totient 9]) := by
  constructor
  · simp [generate_rsa_keys, inverseLib, egcd]
  · decide

/-- Claim C9 (corrected, amended to distinct primes): for primes `p ≠ q`
with `gcd(65537, (p-1)(q-1)) = 1`, `generate_rsa_keys` returns the key pair
`((65537, p*q), (d, p*q))` with `65537 * d ≡ 1 (mod φ(p*q))`; when
`gcd(65537, (p-1)(q-1)) ≠ 1` it fails (the library `inverse` raises
`ValueError`; the code has no retry and no `KeyGenerationError`). -/
theorem C9_key_generation (p q : Nat) (hp : p.Prime) (hq : q.Prime)
    (hpq : p ≠ q) :
    (Nat.gcd 65537 ((p - 1) * (q - 1)) = 1 →
      ∃ d, generate_rsa_keys p q = Except.ok ((65537, p * q), (d, p * q)) ∧
        65537 * d ≡ 1 [MOD Nat.totient (p * q)]) ∧
    (Nat.gcd 65537 ((p - 1) * (q - 1)) ≠ 1 →
      generate_rsa_keys p q = Except.error "ValueError") := by
  have hp2 := hp.two_le
  have hq2 := hq.two_le
  have hphi : 0 < (p - 1) * (q - 1) := by
    have : 1 ≤ p - 1 := by omega
    have : 1 ≤ q - 1 := by omega
    positivity
  constructor
  · intro hg
    obtain ⟨x, hok, hx, hax⟩ := modinv_spec 65537 ((p - 1) * (q - 1)) hphi hg
    refine ⟨x, ?_, ?_⟩
    · rw [generate_rsa_keys, inverseLib_eq_modinv _ _ hg, hok]
    · rw [totient_pq p q hp hq hpq]
      exact hax
  · intro hg
    rw [generate_rsa_keys]
    simp [inverseLib, hg]

/-- Claim C9 witness: `p = 3, q = 5` gives `phi = 8`, `d = 1`. -/
theorem C9_witness :
    Nat.Prime 3 ∧ Nat.Prime 5 ∧ (3 ≠ 5) ∧
    Nat.gcd 65537 ((3 - 1) * (5 - 1)) = 1 ∧
    ∃ d, generate_rsa_keys 3 5 = Except.ok ((65537, 3 * 5), (d, 3 * 5)) ∧
      65537 * d ≡ 1 [MOD Nat.totient (3 * 5)] :=
  ⟨by decide, by decide, by decide, by decide,
    (C9_key_generation 3 5 (by decide) (by decide) (by decide)).1 (by decide)⟩

/-- Claim C10 (confirmed): a caller-supplied blinding factor is never
validated.  `blind_message` accepts any `r` — in particular one with
`gcd(r, N) ≠ 1` — and returns `(m * r^e) % N` normally; the defect is only
detected later, when `unblind_signature` computes the modular inverse of
`r` and `_modinv` raises. -/
theorem C10_supplied_factor_unchecked (mo : MessageOwner)
    (digest : List Nat → Nat) (message : List Nat) (r sig : Nat)
    (stream : List Nat) (hr : Nat.gcd r mo.N ≠ 1) :
    blind_message mo digest message (some r) stream =
      some ⟨(digest message * r ^ mo.e) % mo.N, r, digest message⟩ ∧
    unblind_signature mo sig r =
      Except.error "Modular inverse does not exist" := by
  refine ⟨?_, ?_⟩
  · simp only [blind_message]
    rw [mul_mod_red]
  · simp [unblind_signature, modinv_err r mo.N hr]

/-- Claim C10 witness: modulus 15 and the non-coprime factor 5. -/
theorem C10_witness :
    Nat.gcd 5 15 ≠ 1 ∧
    (blind_message ⟨3, 15⟩ (fun _ => 2) [] (some 5) [] =
        some ⟨(2 * 5 ^ 3) % 15, 5, 2⟩ ∧
      unblind_signature ⟨3, 15⟩ 7 5 =
        Except.error "Modular inverse does not exist") :=
  ⟨by decide,
    C10_supplied_factor_unchecked ⟨3, 15⟩ (fun _ => 2) [] 5 7 [] (by decide)⟩

end Cryptorion
